import Mathlib

/- Verification development for the sc-data-gathering-service repository.

   The TypeScript sources are shallowly embedded at day granularity: an ISO
   `YYYY-MM-DD` date string is represented by its day number as an `Int`.
   At this granularity comparison of `Date` objects, comparison of their
   epoch-millisecond values, and lexicographic comparison of normalized
   `YYYY-MM-DD` strings all coincide with the order on `Int`;
   `getNextDay` / `getPreviousDay` are `+ 1` / `- 1`, and `ONE_DAY_IN_MS`
   is one day.  Strings that are not dates (keys, keywords, destinations,
   tweet texts) are kept as `String` / `List Char` and processed by the
   same character-level operations the JavaScript code performs. -/

namespace SCData

/-- `DateRange` from `src/utils/CrawlLockManager.ts`: an inclusive interval of
calendar days, `start` and `end` being day numbers. -/
structure DateRange where
  start : Int
  «end» : Int
deriving Repr, DecidableEq

/-- `CrawlerLock.ONE_DAY_IN_MS` expressed at day granularity: one day. -/
def ONE_DAY : Int := 1

/-- `CrawlerLock.isAdjacentOrOverlapping(range1, range2)`:
`start2 <= end1 || start2.getTime() <= end1.getTime() + ONE_DAY_IN_MS`. -/
def isAdjacentOrOverlapping (range1 range2 : DateRange) : Bool :=
  decide (range2.start ≤ range1.«end») ||
    decide (range2.start ≤ range1.«end» + ONE_DAY)

/-- `CrawlerLock.mergeRanges(range1, range2)`: keeps `range1.start` and takes
`range2.end` exactly when `end2 > end1`. -/
def mergeRanges (range1 range2 : DateRange) : DateRange :=
  { start := range1.start
    «end» := if range2.«end» > range1.«end» then range2.«end» else range1.«end» }

/-- The order used by the sort comparator
`(a, b) => new Date(a.start).getTime() - new Date(b.start).getTime()`.
`Array.prototype.sort` with a consistent comparator produces the stable sort
by this order, which is what `List.insertionSort` computes. -/
def startOrder (a b : DateRange) : Prop := a.start ≤ b.start

instance : DecidableRel startOrder := fun a b => Int.decLe a.start b.start

instance : IsTrans DateRange startOrder := ⟨fun _ _ _ h1 h2 => le_trans h1 h2⟩

instance : IsTotal DateRange startOrder := ⟨fun a b => le_total a.start b.start⟩

/-- The accumulation loop of `mergeDateRanges` (lines 40–54): fold over the
sorted tail, fusing `currentRange` with the next range when
`isAdjacentOrOverlapping`, otherwise emitting `currentRange` and restarting
from the next range. -/
def mergeLoop (currentRange : DateRange) : List DateRange → List DateRange
  | [] => [currentRange]
  | nextRange :: rest =>
    if isAdjacentOrOverlapping currentRange nextRange then
      mergeLoop (mergeRanges currentRange nextRange) rest
    else
      currentRange :: mergeLoop nextRange rest

/-- `CrawlerLock.mergeDateRanges(ranges)`: sort a copy by `start` ascending and
run the fusion loop starting from the first sorted range. -/
def mergeDateRanges (ranges : List DateRange) : List DateRange :=
  match ranges.insertionSort startOrder with
  | [] => []
  | first :: rest => mergeLoop first rest

/-- The set of calendar days covered by a range (inclusive on both ends; empty
when `start > end`). -/
def days (r : DateRange) : Set Int := Set.Icc r.start r.«end»

/-- The union of the days of a list of ranges. -/
def daysUnion (l : List DateRange) : Set Int := {d | ∃ r ∈ l, d ∈ days r}

theorem daysUnion_nil : daysUnion [] = ∅ := by
  ext d; simp [daysUnion]

theorem daysUnion_cons (r : DateRange) (l : List DateRange) :
    daysUnion (r :: l) = days r ∪ daysUnion l := by
  ext d; simp [daysUnion, or_and_right, exists_or]

theorem daysUnion_append (l₁ l₂ : List DateRange) :
    daysUnion (l₁ ++ l₂) = daysUnion l₁ ∪ daysUnion l₂ := by
  ext d; simp [daysUnion, or_and_right, exists_or]

theorem daysUnion_perm {l₁ l₂ : List DateRange} (h : l₁.Perm l₂) :
    daysUnion l₁ = daysUnion l₂ := by
  ext d; simp only [daysUnion, Set.mem_setOf_eq]
  constructor <;> rintro ⟨r, hr, hd⟩
  · exact ⟨r, h.mem_iff.mp hr, hd⟩
  · exact ⟨r, h.mem_iff.mpr hr, hd⟩

/-- Fusing an adjacent-or-overlapping later-starting range neither loses nor
invents days. -/
theorem days_mergeRanges (c n : DateRange) (hstart : c.start ≤ n.start)
    (hadj : isAdjacentOrOverlapping c n = true) :
    days (mergeRanges c n) = days c ∪ days n := by
  simp only [isAdjacentOrOverlapping, ONE_DAY, Bool.or_eq_true, decide_eq_true_eq] at hadj
  ext d
  simp only [days, mergeRanges, Set.mem_union, Set.mem_Icc]
  by_cases h : n.«end» > c.«end» <;> simp only [h, if_pos, if_neg, if_true, if_false] <;> omega

theorem adj_congr_start {c h n : DateRange} (hs : h.start = n.start) :
    isAdjacentOrOverlapping c h = isAdjacentOrOverlapping c n := by
  simp [isAdjacentOrOverlapping, hs]

/-- Invariant of the fusion loop: on a start-sorted tail whose starts dominate
`currentRange.start`, the loop emits a nonempty list that starts at
`currentRange.start`, has ascending starts, consecutive elements that are not
adjacent-or-overlapping, and covers exactly the input days. -/
theorem mergeLoop_spec (rest : List DateRange) :
    ∀ current : DateRange,
    rest.Pairwise (fun a b => a.start ≤ b.start) →
    (∀ r ∈ rest, current.start ≤ r.start) →
    (∀ r ∈ mergeLoop current rest, current.start ≤ r.start)
    ∧ (∃ e t, mergeLoop current rest = DateRange.mk current.start e :: t)
    ∧ (mergeLoop current rest).Pairwise (fun a b => a.start ≤ b.start)
    ∧ (mergeLoop current rest).Chain' (fun a b => isAdjacentOrOverlapping a b = false)
    ∧ daysUnion (mergeLoop current rest) = days current ∪ daysUnion rest := by
  induction rest with
  | nil =>
    intro current _ _
    refine ⟨?_, ⟨current.«end», [], rfl⟩, ?_, ?_, ?_⟩
    · intro r hr; simp only [mergeLoop, List.mem_singleton] at hr; simp [hr]
    · simp [mergeLoop]
    · simp [mergeLoop]
    · simp [mergeLoop, daysUnion_cons, daysUnion_nil]
  | cons n rest ih =>
    intro current hsort hmin
    have hsort' : rest.Pairwise (fun a b => a.start ≤ b.start) :=
      (List.pairwise_cons.mp hsort).2
    have hnmin : ∀ r ∈ rest, n.start ≤ r.start := (List.pairwise_cons.mp hsort).1
    have hcn : current.start ≤ n.start := hmin n (List.mem_cons_self n rest)
    by_cases hadj : isAdjacentOrOverlapping current n = true
    · have hms : (mergeRanges current n).start = current.start := rfl
      have hmin' : ∀ r ∈ rest, (mergeRanges current n).start ≤ r.start := by
        intro r hr; rw [hms]; exact le_trans hcn (hnmin r hr)
      obtain ⟨h1, h2, h3, h4, h5⟩ := ih (mergeRanges current n) hsort' hmin'
      have hexp : mergeLoop current (n :: rest) = mergeLoop (mergeRanges current n) rest := by
        simp [mergeLoop, hadj]
      refine ⟨?_, ?_, ?_, ?_, ?_⟩
      · intro r hr; rw [hexp] at hr; have := h1 r hr; rw [hms] at this; exact this
      · rw [hexp]; rw [hms] at h2; exact h2
      · rw [hexp]; exact h3
      · rw [hexp]; exact h4
      · rw [hexp, h5, days_mergeRanges current n hcn hadj, daysUnion_cons]
        rw [Set.union_assoc]
    · have hexp : mergeLoop current (n :: rest) = current :: mergeLoop n rest := by
        simp [mergeLoop, hadj]
      obtain ⟨h1, h2, h3, h4, h5⟩ := ih n hsort' hnmin
      obtain ⟨e, t, ht⟩ := h2
      refine ⟨?_, ?_, ?_, ?_, ?_⟩
      · intro r hr; rw [hexp] at hr
        rcases List.mem_cons.mp hr with h | h
        · simp [h]
        · exact le_trans hcn (h1 r h)
      · exact ⟨current.«end», mergeLoop n rest, by rw [hexp]⟩
      · rw [hexp, List.pairwise_cons]
        exact ⟨fun r hr => le_trans hcn (h1 r hr), h3⟩
      · rw [hexp, ht, List.chain'_cons]
        constructor
        · rw [adj_congr_start (c := current)
            (show (DateRange.mk n.start e).start = n.start from rfl)]
          simpa using hadj
        · rw [← ht]; exact h4
      · rw [hexp, daysUnion_cons, daysUnion_cons, h5]

/-- A start-sorted list whose consecutive elements leave a gap has pairwise
disjoint day sets. -/
theorem pairwise_disjoint_days (l : List DateRange)
    (hs : l.Pairwise (fun a b => a.start ≤ b.start))
    (hc : l.Chain' (fun a b => a.«end» < b.start)) :
    l.Pairwise (fun a b => Disjoint (days a) (days b)) := by
  induction l with
  | nil => simp
  | cons a l ih =>
    have hs' := (List.pairwise_cons.mp hs).2
    have hc' := (List.chain'_cons'.mp hc).2
    have hhead := (List.chain'_cons'.mp hc).1
    rw [List.pairwise_cons]
    refine ⟨?_, ih hs' hc'⟩
    intro b hb
    rcases l with _ | ⟨h0, l'⟩
    · simp at hb
    · have h1 : a.«end» < h0.start := hhead h0 rfl
      have h2 : h0.start ≤ b.start := by
        rcases List.mem_cons.mp hb with h | h
        · rw [h]
        · exact (List.pairwise_cons.mp hs').1 b h
      rw [Set.disjoint_left]
      intro d hd hdb
      simp only [days, Set.mem_Icc] at hd hdb
      omega

/-- C1: `mergeDateRanges` returns ranges that are (a) pairwise disjoint,
(b) not adjacent within 1 day (no consecutive output ranges satisfy
`isAdjacentOrOverlapping`), (c) whose union of days equals the union of the
days of the input ranges, (d) sorted ascending by `start`; moreover two
ranges `a, b` are fusable exactly when `b.start ≤ a.end` OR
`b.start ≤ a.end + 1 day`, and fusing yields `[a.start, max(a.end, b.end)]`. -/
theorem mergeDateRanges_correct (ranges : List DateRange) :
    (mergeDateRanges ranges).Pairwise (fun a b => Disjoint (days a) (days b))
    ∧ (mergeDateRanges ranges).Chain' (fun a b => isAdjacentOrOverlapping a b = false)
    ∧ daysUnion (mergeDateRanges ranges) = daysUnion ranges
    ∧ (mergeDateRanges ranges).Pairwise (fun a b => a.start ≤ b.start)
    ∧ (∀ a b : DateRange, isAdjacentOrOverlapping a b = true ↔
        (b.start ≤ a.«end» ∨ b.start ≤ a.«end» + ONE_DAY))
    ∧ (∀ a b : DateRange, mergeRanges a b = DateRange.mk a.start (max a.«end» b.«end»)) := by
  have hiff : ∀ a b : DateRange, isAdjacentOrOverlapping a b = true ↔
      (b.start ≤ a.«end» ∨ b.start ≤ a.«end» + ONE_DAY) := by
    intro a b; simp [isAdjacentOrOverlapping]
  have hmr : ∀ a b : DateRange, mergeRanges a b = DateRange.mk a.start (max a.«end» b.«end») := by
    intro a b
    unfold mergeRanges
    by_cases h : b.«end» > a.«end»
    · simp [DateRange.mk.injEq, h, max_eq_right h.le]
    · simp only [not_lt] at h
      simp [DateRange.mk.injEq, not_lt.mpr h, max_eq_left h]
  have hperm := List.perm_insertionSort startOrder ranges
  cases hms : ranges.insertionSort startOrder with
  | nil =>
    have hnil : ranges = [] := by
      have := hms ▸ hperm
      exact (this.symm).eq_nil
    have hmd : mergeDateRanges ranges = [] := by
      unfold mergeDateRanges; rw [hms]
    rw [hmd, hnil]
    simp [hiff, hmr, daysUnion_nil]
  | cons first restS =>
    have hsorted : (ranges.insertionSort startOrder).Pairwise (fun a b => a.start ≤ b.start) := by
      have := List.sorted_insertionSort startOrder ranges
      exact this.imp (fun h => h)
    rw [hms, List.pairwise_cons] at hsorted
    have hmd : mergeDateRanges ranges = mergeLoop first restS := by
      unfold mergeDateRanges; rw [hms]
    obtain ⟨_, _, hsort2, hchain, hunion⟩ :=
      mergeLoop_spec restS first hsorted.2 hsorted.1
    have hchainless : (mergeLoop first restS).Chain' (fun a b => a.«end» < b.start) := by
      refine hchain.imp ?_
      intro a b hab
      have : ¬ (b.start ≤ a.«end» ∨ b.start ≤ a.«end» + ONE_DAY) := by
        intro hcon
        rw [← hiff a b] at hcon
        rw [hab] at hcon
        exact Bool.false_ne_true hcon
      simp only [ONE_DAY] at this
      omega
    refine ⟨?_, ?_, ?_, ?_, hiff, hmr⟩
    · rw [hmd]; exact pairwise_disjoint_days _ hsort2 hchainless
    · rw [hmd]; exact hchain
    · rw [hmd, hunion, ← daysUnion_cons, ← hms]
      exact daysUnion_perm hperm
    · rw [hmd]; exact hsort2

/-- The `{from, to}` overlap objects produced by
`checkStartDateEndDateContainsOnKeys` and consumed by
`splitAndRemoveOverlappingRanges` (day numbers; `normalizeDate` is the
identity at day granularity). -/
structure OverlapRange where
  «from» : Int
  «to» : Int
deriving Repr, DecidableEq

/-- The order used by `data.sort((a, b) => normalizeDate(a.from).localeCompare(normalizeDate(b.from)))`:
lexicographic comparison of normalized `YYYY-MM-DD` strings is the numeric
order of the corresponding days. -/
def fromOrder (a b : OverlapRange) : Prop := a.«from» ≤ b.«from»

instance : DecidableRel fromOrder := fun a b => Int.decLe a.«from» b.«from»

instance : IsTrans OverlapRange fromOrder := ⟨fun _ _ _ h1 h2 => le_trans h1 h2⟩

instance : IsTotal OverlapRange fromOrder := ⟨fun a b => le_total a.«from» b.«from»⟩

/-- The set of days covered by an overlap entry. -/
def overlapDays (o : OverlapRange) : Set Int := Set.Icc o.«from» o.«to»

/-- The union of the days of a list of overlap entries. -/
def overlapDaysUnion (l : List OverlapRange) : Set Int := {d | ∃ o ∈ l, d ∈ overlapDays o}

/-- The sweep of `splitAndRemoveOverlappingRanges` (lines 156–195): walk the
sorted overlap entries with the cursor `currentStart`; for each entry that
intersects `[currentStart, request.end]`, emit the segment before it (if any,
ending at `getPreviousDay(normalizedFrom)`) and advance the cursor to
`getNextDay(normalizedTo)`; finally emit `[currentStart, request.end]` when
still non-degenerate. -/
def splitLoop (reqEnd : Int) : Int → List OverlapRange → List DateRange
  | currentStart, [] =>
    if currentStart ≤ reqEnd then [⟨currentStart, reqEnd⟩] else []
  | currentStart, range :: rest =>
    if range.«from» ≤ reqEnd ∧ range.«to» ≥ currentStart then
      (if currentStart < range.«from» then [⟨currentStart, range.«from» - 1⟩] else [])
        ++ splitLoop reqEnd (range.«to» + 1) rest
    else
      splitLoop reqEnd currentStart rest

/-- `CrawlerLock.splitAndRemoveOverlappingRanges(ranges, keys)` together with
the post-call state of its two arguments.  `const sortedData = data.sort(...)`
with `const data = keys` sorts the caller's `keys` array in place (the third
component is its state after the call); the `ranges` argument is only read
(second component). -/
def splitAndRemoveOverlappingRangesFull (ranges : DateRange) (keys : List OverlapRange) :
    List DateRange × DateRange × List OverlapRange :=
  let request : DateRange := { start := ranges.start, «end» := ranges.«end» }
  let sortedData := keys.insertionSort fromOrder
  (splitLoop request.«end» request.start sortedData, ranges, sortedData)

/-- The return value of `CrawlerLock.splitAndRemoveOverlappingRanges`. -/
def splitAndRemoveOverlappingRanges (ranges : DateRange) (keys : List OverlapRange) :
    List DateRange :=
  (splitAndRemoveOverlappingRangesFull ranges keys).1

theorem overlapDaysUnion_nil : overlapDaysUnion [] = ∅ := by
  ext d; simp [overlapDaysUnion]

theorem overlapDaysUnion_cons (o : OverlapRange) (l : List OverlapRange) :
    overlapDaysUnion (o :: l) = overlapDays o ∪ overlapDaysUnion l := by
  ext d; simp [overlapDaysUnion, or_and_right, exists_or]

theorem overlapDaysUnion_perm {l₁ l₂ : List OverlapRange} (h : l₁.Perm l₂) :
    overlapDaysUnion l₁ = overlapDaysUnion l₂ := by
  ext d; simp only [overlapDaysUnion, Set.mem_setOf_eq]
  constructor <;> rintro ⟨o, ho, hd⟩
  · exact ⟨o, h.mem_iff.mp ho, hd⟩
  · exact ⟨o, h.mem_iff.mpr ho, hd⟩

theorem overlapDaysUnion_lb {rest : List OverlapRange} {lb : Int}
    (h : ∀ o ∈ rest, lb ≤ o.«from») :
    ∀ d ∈ overlapDaysUnion rest, lb ≤ d := by
  intro d hd
  simp only [overlapDaysUnion, Set.mem_setOf_eq] at hd
  obtain ⟨o, ho, hdo⟩ := hd
  simp only [overlapDays, Set.mem_Icc] at hdo
  exact le_trans (h o ho) hdo.1

@[simp] theorem mk_start (a b : Int) : (DateRange.mk a b).start = a := rfl

@[simp] theorem mk_end (a b : Int) : (DateRange.mk a b).«end» = b := rfl

theorem days_mk (a b : Int) : days (DateRange.mk a b) = Set.Icc a b := rfl

/-- Invariant of the sweep: on sorted, well-formed overlap entries the emitted
sub-ranges lie within `[currentStart, reqEnd]`, are non-degenerate, leave a gap
between consecutive elements, and cover exactly `[currentStart, reqEnd]` minus
the overlap days. -/
theorem splitLoop_spec (reqEnd : Int) (os : List OverlapRange) :
    ∀ currentStart : Int,
    os.Pairwise fromOrder →
    (∀ o ∈ os, o.«from» ≤ o.«to») →
    (∀ r ∈ splitLoop reqEnd currentStart os,
        currentStart ≤ r.start ∧ r.start ≤ r.«end» ∧ r.«end» ≤ reqEnd)
    ∧ (splitLoop reqEnd currentStart os).Chain' (fun a b => a.«end» < b.start)
    ∧ daysUnion (splitLoop reqEnd currentStart os)
        = Set.Icc currentStart reqEnd \ overlapDaysUnion os := by
  induction os with
  | nil =>
    intro cs _ _
    by_cases h : cs ≤ reqEnd
    · have hexp : splitLoop reqEnd cs [] = [⟨cs, reqEnd⟩] := by simp [splitLoop, h]
      refine ⟨?_, ?_, ?_⟩
      · intro r hr; rw [hexp, List.mem_singleton] at hr; rw [hr]
        refine ⟨?_, ?_, ?_⟩ <;> simp <;> omega
      · rw [hexp]; simp
      · rw [hexp, daysUnion_cons, daysUnion_nil, overlapDaysUnion_nil, days_mk]
        simp
    · have hexp : splitLoop reqEnd cs [] = [] := by simp [splitLoop, h]
      refine ⟨?_, ?_, ?_⟩
      · intro r hr; rw [hexp] at hr; simp at hr
      · rw [hexp]; simp
      · rw [hexp, daysUnion_nil, overlapDaysUnion_nil]
        rw [Set.Icc_eq_empty h]
        simp
  | cons o rest ih =>
    intro cs hsort hwf
    have hsort' : rest.Pairwise fromOrder := (List.pairwise_cons.mp hsort).2
    have hfmin : ∀ o' ∈ rest, o.«from» ≤ o'.«from» := (List.pairwise_cons.mp hsort).1
    have hwfo : o.«from» ≤ o.«to» := hwf o (List.mem_cons_self o rest)
    have hwf' : ∀ o' ∈ rest, o'.«from» ≤ o'.«to» :=
      fun o' h => hwf o' (List.mem_cons_of_mem o h)
    have hrestlb : ∀ d ∈ overlapDaysUnion rest, o.«from» ≤ d :=
      overlapDaysUnion_lb hfmin
    by_cases hcond : o.«from» ≤ reqEnd ∧ o.«to» ≥ cs
    · obtain ⟨h1, h2, h3⟩ := ih (o.«to» + 1) hsort' hwf'
      have hexp : splitLoop reqEnd cs (o :: rest) =
          (if cs < o.«from» then [⟨cs, o.«from» - 1⟩] else [])
            ++ splitLoop reqEnd (o.«to» + 1) rest := by
        simp [splitLoop, hcond]
      by_cases hpush : cs < o.«from»
      · rw [if_pos hpush] at hexp
        refine ⟨?_, ?_, ?_⟩
        · intro r hr
          rw [hexp, List.mem_append] at hr
          rcases hr with hr | hr
          · rw [List.mem_singleton] at hr; rw [hr]
            refine ⟨?_, ?_, ?_⟩ <;> simp <;> omega
          · obtain ⟨ha, hb, hc⟩ := h1 r hr
            exact ⟨by omega, hb, hc⟩
        · rw [hexp]
          rw [List.singleton_append, List.chain'_cons']
          refine ⟨?_, h2⟩
          intro y hy
          have hmem : y ∈ splitLoop reqEnd (o.«to» + 1) rest :=
            List.mem_of_mem_head? hy
          have := (h1 y hmem).1
          simp only [mk_end]
          omega
        · rw [hexp, daysUnion_append, h3, overlapDaysUnion_cons, daysUnion_cons,
            daysUnion_nil, days_mk]
          ext d
          by_cases hdr : d ∈ overlapDaysUnion rest
          · have hlbd := hrestlb d hdr
            simp only [hdr, Set.mem_union, Set.mem_diff, Set.mem_Icc, Set.union_empty,
              overlapDays, not_true_eq_false, not_false_eq_true, and_false, and_true,
              or_true, or_false, false_and, true_and, false_or, or_self, not_or,
              iff_false, iff_true, true_iff, false_iff]
            try omega
          · simp only [hdr, Set.mem_union, Set.mem_diff, Set.mem_Icc, Set.union_empty,
              overlapDays, not_true_eq_false, not_false_eq_true, and_false, and_true,
              or_true, or_false, false_and, true_and, false_or, or_self, not_or,
              iff_false, iff_true, true_iff, false_iff]
            try omega
      · rw [if_neg hpush] at hexp
        rw [List.nil_append] at hexp
        have hfromle : o.«from» ≤ cs := by omega
        refine ⟨?_, ?_, ?_⟩
        · intro r hr
          rw [hexp] at hr
          obtain ⟨ha, hb, hc⟩ := h1 r hr
          exact ⟨by omega, hb, hc⟩
        · rw [hexp]; exact h2
        · rw [hexp, h3, overlapDaysUnion_cons]
          ext d
          by_cases hdr : d ∈ overlapDaysUnion rest <;>
            simp only [hdr, Set.mem_union, Set.mem_diff, Set.mem_Icc,
              overlapDays, not_true_eq_false, not_false_eq_true, and_false, and_true,
              or_true, or_false, false_and, true_and, false_or, or_self, not_or,
              iff_false, iff_true, true_iff, false_iff] <;>
          try omega
    · obtain ⟨h1, h2, h3⟩ := ih cs hsort' hwf'
      have hexp : splitLoop reqEnd cs (o :: rest) = splitLoop reqEnd cs rest := by
        simp [splitLoop, hcond]
      have hno : o.«from» > reqEnd ∨ o.«to» < cs := by
        rcases not_and_or.mp hcond with h | h
        · exact Or.inl (by omega)
        · exact Or.inr (by omega)
      refine ⟨?_, ?_, ?_⟩
      · intro r hr; rw [hexp] at hr; exact h1 r hr
      · rw [hexp]; exact h2
      · rw [hexp, h3, overlapDaysUnion_cons]
        ext d
        by_cases hdr : d ∈ overlapDaysUnion rest <;>
          simp only [hdr, Set.mem_union, Set.mem_diff, Set.mem_Icc,
            overlapDays, not_true_eq_false, not_false_eq_true, and_false, and_true,
            or_true, or_false, false_and, true_and, false_or, or_self, not_or,
            iff_false, iff_true, true_iff, false_iff] <;>
          omega

theorem pairwise_gap_of_chain (l : List DateRange)
    (hwf : ∀ r ∈ l, r.start ≤ r.«end»)
    (hc : l.Chain' (fun a b => a.«end» < b.start)) :
    l.Pairwise (fun a b => a.«end» < b.start) := by
  induction l with
  | nil => simp
  | cons a l ih =>
    have hc' := (List.chain'_cons'.mp hc).2
    have hhead := (List.chain'_cons'.mp hc).1
    have hwf' : ∀ r ∈ l, r.start ≤ r.«end» :=
      fun r h => hwf r (List.mem_cons_of_mem a h)
    have hp := ih hwf' hc'
    rw [List.pairwise_cons]
    refine ⟨?_, hp⟩
    intro b hb
    rcases l with _ | ⟨h0, l'⟩
    · simp at hb
    · have h1 : a.«end» < h0.start := hhead h0 rfl
      have h0wf : h0.start ≤ h0.«end» := hwf' h0 (List.mem_cons_self h0 l')
      rcases List.mem_cons.mp hb with h | h
      · rw [h]; omega
      · have := (List.pairwise_cons.mp hp).1 b h
        omega

theorem disjoint_days_of_gap {a b : DateRange} (h : a.«end» < b.start) :
    Disjoint (days a) (days b) := by
  rw [Set.disjoint_left]
  intro d hd hdb
  simp only [days, Set.mem_Icc] at hd hdb
  omega

/-- C2: for every request range with `start ≤ end` and every list of overlap
intervals (each satisfying the data-model invariant `from ≤ to`),
`splitAndRemoveOverlappingRanges` returns an ordered (ascending by `start`,
pairwise disjoint) list of sub-ranges whose union of days equals the days of
the request minus the union of the days of the overlaps, at day granularity. -/
theorem splitAndRemoveOverlappingRanges_correct
    (req : DateRange) (overlaps : List OverlapRange)
    (hreq : req.start ≤ req.«end»)
    (hwf : ∀ o ∈ overlaps, o.«from» ≤ o.«to») :
    (splitAndRemoveOverlappingRanges req overlaps).Pairwise (fun a b => a.start ≤ b.start)
    ∧ (splitAndRemoveOverlappingRanges req overlaps).Pairwise
        (fun a b => Disjoint (days a) (days b))
    ∧ daysUnion (splitAndRemoveOverlappingRanges req overlaps)
        = days req \ overlapDaysUnion overlaps := by
  have hperm := List.perm_insertionSort fromOrder overlaps
  have hsorted : (overlaps.insertionSort fromOrder).Pairwise fromOrder :=
    List.sorted_insertionSort fromOrder overlaps
  have hwfs : ∀ o ∈ overlaps.insertionSort fromOrder, o.«from» ≤ o.«to» :=
    fun o ho => hwf o (hperm.mem_iff.mp ho)
  have hexp : splitAndRemoveOverlappingRanges req overlaps
      = splitLoop req.«end» req.start (overlaps.insertionSort fromOrder) := rfl
  obtain ⟨h1, h2, h3⟩ :=
    splitLoop_spec req.«end» (overlaps.insertionSort fromOrder) req.start hsorted hwfs
  have hgap := pairwise_gap_of_chain _ (fun r hr => (h1 r hr).2.1) h2
  refine ⟨?_, ?_, ?_⟩
  · rw [hexp]
    refine hgap.imp_of_mem ?_
    intro a b ha _ hab
    have := (h1 a ha).2.1
    omega
  · rw [hexp]
    exact hgap.imp disjoint_days_of_gap
  · rw [hexp, h3]
    rw [overlapDaysUnion_perm hperm]
    rfl

/-- Witness for C2 at the spec's hole-split scenario: request `[0, 10]`,
single overlap `[4, 6]`. -/
theorem splitAndRemoveOverlappingRanges_correct_witness :
    (splitAndRemoveOverlappingRanges ⟨0, 10⟩ [⟨4, 6⟩]).Pairwise (fun a b => a.start ≤ b.start)
    ∧ (splitAndRemoveOverlappingRanges ⟨0, 10⟩ [⟨4, 6⟩]).Pairwise
        (fun a b => Disjoint (days a) (days b))
    ∧ daysUnion (splitAndRemoveOverlappingRanges ⟨0, 10⟩ [⟨4, 6⟩])
        = days ⟨0, 10⟩ \ overlapDaysUnion [⟨4, 6⟩] :=
  splitAndRemoveOverlappingRanges_correct ⟨0, 10⟩ [⟨4, 6⟩] (by decide)
    (by intro o ho; simp only [List.mem_singleton] at ho; rw [ho]; decide)

/-- C10: `splitAndRemoveOverlappingRanges` sorts its `keys` argument in place
(ascending by normalized `from`): after the call the caller's overlap array is
a sorted permutation of what was passed — genuinely reordered for unsorted
inputs, as the concrete instance shows — while the request argument is never
modified. -/
theorem splitAndRemoveOverlappingRanges_sorts_in_place :
    (∀ (req : DateRange) (keys : List OverlapRange),
      (splitAndRemoveOverlappingRangesFull req keys).2.1 = req
      ∧ ((splitAndRemoveOverlappingRangesFull req keys).2.2).Perm keys
      ∧ ((splitAndRemoveOverlappingRangesFull req keys).2.2).Pairwise fromOrder)
    ∧ (splitAndRemoveOverlappingRangesFull ⟨0, 9⟩ [⟨7, 8⟩, ⟨1, 2⟩]).2.2
        = [⟨1, 2⟩, ⟨7, 8⟩] := by
  constructor
  · intro req keys
    exact ⟨rfl, List.perm_insertionSort fromOrder keys,
      List.sorted_insertionSort fromOrder keys⟩
  · decide

/-- Result of one planning pass of `CrawlerWorker.getTweets` (lines 204–268).
`done` is the short-circuit when recorded coverage exactly equals the request
(the call returns `[]`); `retry` is the empty-split branch (wait 5 seconds and
recurse with unchanged arguments, i.e. re-plan); `proceed rs` stores `rs` as
`param.splited_range` and goes on to crawl. -/
inductive PlanResult where
  | done : PlanResult
  | retry : PlanResult
  | proceed : List DateRange → PlanResult
deriving Repr, DecidableEq

/-- The short-circuit test (lines 210–213): coverage is non-null and its
`from`/`to` equal `main_range.start`/`main_range.end` exactly. -/
def exactCoverage (main : DateRange) (coverage : Option OverlapRange) : Bool :=
  match coverage with
  | none => false
  | some c => decide (c.«from» = main.start) && decide (c.«to» = main.«end»)

/-- One planning pass of `getTweets`, with the lock overlaps returned by
`checkStartDateEndDateContainsOnKeys` (`|| []` turns `false` into the empty
list) and the `crawledRanges` coverage derived from the database records; the
coverage entry is pushed after the lock overlaps (line 223). -/
def planPass (main : DateRange) (coverage : Option OverlapRange)
    (lockOverlaps : List OverlapRange) : PlanResult :=
  if exactCoverage main coverage then .done
  else
    let overlapRanges := lockOverlaps ++ coverage.toList
    if overlapRanges.isEmpty then .proceed [main]
    else
      let splitRanges := splitAndRemoveOverlappingRanges main overlapRanges
      if splitRanges.isEmpty then .retry else .proceed splitRanges

/-- The planning-level recursion of `getTweets` under an unchanged lock store
and database: fuel-indexed iteration of `planPass`; `none` means the call has
not returned within the given number of passes.  A `done` pass returns `[]`
(empty result), a `proceed` pass returns the residual list the worker goes on
to process, and a `retry` pass models line 244–245 (5-second sleep, then
`return this.getTweets(param, index, nestedIndex)` with identical arguments). -/
def getTweetsPlanLoop (main : DateRange) (coverage : Option OverlapRange)
    (lockOverlaps : List OverlapRange) : Nat → Option (List DateRange)
  | 0 => none
  | fuel + 1 =>
    match planPass main coverage lockOverlaps with
    | .done => some []
    | .retry => getTweetsPlanLoop main coverage lockOverlaps fuel
    | .proceed rs => some rs

/-- C9: when a planning pass yields an empty residual list while recorded
coverage is not exactly the request, `getTweets` never returns under an
unchanged lock store and database: every pass takes the retry branch, so no
amount of fuel makes the plan loop produce a value; conversely any state whose
pass is not a retry returns on the first pass. -/
theorem getTweetsPlanLoop_fullyLocked_never_returns
    (main : DateRange) (coverage : Option OverlapRange)
    (lockOverlaps : List OverlapRange)
    (hempty : splitAndRemoveOverlappingRanges main (lockOverlaps ++ coverage.toList) = [])
    (hnotexact : exactCoverage main coverage = false)
    (hplanned : lockOverlaps ++ coverage.toList ≠ []) :
    planPass main coverage lockOverlaps = .retry
    ∧ (∀ fuel, getTweetsPlanLoop main coverage lockOverlaps fuel = none)
    ∧ (∀ m c l, planPass m c l ≠ .retry →
        ∃ v, getTweetsPlanLoop m c l 1 = some v) := by
  have hne : (lockOverlaps ++ coverage.toList).isEmpty = false :=
    Bool.eq_false_iff.mpr (fun h => hplanned (List.isEmpty_iff.mp h))
  have hse : (splitAndRemoveOverlappingRanges main (lockOverlaps ++ coverage.toList)).isEmpty
      = true := List.isEmpty_iff.mpr hempty
  have hpass : planPass main coverage lockOverlaps = .retry := by
    unfold planPass
    rw [hnotexact]
    simp [hne, hse]
  refine ⟨hpass, ?_, ?_⟩
  · intro fuel
    induction fuel with
    | zero => rfl
    | succ n ihn =>
      unfold getTweetsPlanLoop
      rw [hpass]
      exact ihn
  · intro m c l hne
    unfold getTweetsPlanLoop
    cases hp : planPass m c l with
    | done => exact ⟨[], rfl⟩
    | retry => exact absurd hp hne
    | proceed rs => exact ⟨rs, rfl⟩

/-- Witness for C9: request `[0, 5]`, no recorded coverage, a single live lock
covering `[0, 5]`; the residual list is empty and coverage is not exact, so
the loop never returns. -/
theorem getTweetsPlanLoop_fullyLocked_never_returns_witness :
    planPass ⟨0, 5⟩ none [⟨0, 5⟩] = .retry
    ∧ (∀ fuel, getTweetsPlanLoop ⟨0, 5⟩ none [⟨0, 5⟩] fuel = none)
    ∧ (∀ m c l, planPass m c l ≠ .retry →
        ∃ v, getTweetsPlanLoop m c l 1 = some v) :=
  getTweetsPlanLoop_fullyLocked_never_returns ⟨0, 5⟩ none [⟨0, 5⟩]
    (by decide) (by decide) (by decide)

/-- A live entry of the remote lock store: full key, JSON value, TTL in
seconds (the `EX` option of `SET`). -/
structure StoreEntry where
  key : String
  value : String
  ttl : Nat
deriving Repr, DecidableEq

/-- The remote key-value store (Redis) as a finite list of live entries. -/
structure RedisStore where
  entries : List StoreEntry
deriving Repr, DecidableEq

/-- Whether a live entry with the given full key exists. -/
def RedisStore.hasKey (s : RedisStore) (k : String) : Bool :=
  s.entries.any (fun e => e.key = k)

/-- `redis.set(k, v, { NX: true, EX: ttl })`: stores and answers `"OK"` when
the key is absent, answers `null` (here `none`) and leaves the store unchanged
when a live key is already present. -/
def redisSetNXEX (s : RedisStore) (k v : String) (ttl : Nat) :
    RedisStore × Option String :=
  if s.hasKey k then (s, none)
  else ({ entries := ⟨k, v, ttl⟩ :: s.entries }, some "OK")

/-- `redis.get(k)`. -/
def redisGet (s : RedisStore) (k : String) : Option String :=
  (s.entries.find? (fun e => e.key = k)).map (fun e => e.value)

/-- `redis.del(k)`: the store without `k`, and the deleted count. -/
def redisDel (s : RedisStore) (k : String) : RedisStore × Nat :=
  ({ entries := s.entries.filter (fun e => ¬ (e.key = k)) },
    (s.entries.filter (fun e => e.key = k)).length)

/-- `redis.keys(pfx + "*")`: the live keys extending the given text. -/
def redisScan (s : RedisStore) (pfx : String) : List String :=
  (s.entries.map (fun e => e.key)).filter (fun k => pfx.data.isPrefixOf k.data)

/-- `LockManager.prefixKey`. -/
def prefixKey : String := "LOCK_"

/-- `JSON.stringify({ timestamp: now })` for the epoch-millisecond clock. -/
def lockValue (now : Int) : String := "\x7b\"timestamp\":" ++ toString now ++ "\x7d"

/-- `LockManager.aquireLock(key)`: `SET` of the prefixed key with
`{timestamp}` value, `NX`, `EX: 60*100`; the command's result is consumed by
logging only — the method's promise resolves to `void`, so the embedded
function returns just the new store state. -/
def aquireLock (s : RedisStore) (key : String) (now : Int) : RedisStore :=
  (redisSetNXEX s (prefixKey ++ key) (lockValue now) (60 * 100)).1

/-- `LockManager.releaseLock(key)`: `DEL` of the prefixed key (result logged
only). -/
def releaseLock (s : RedisStore) (key : String) : RedisStore :=
  (redisDel s (prefixKey ++ key)).1

/-- `LockManager.checkLock(key)`: `GET` of `key` — the bare key, without the
prefix, exactly as in the source. -/
def checkLock (s : RedisStore) (key : String) : Bool :=
  (redisGet s key).isSome

/-- `LockManager.getAllLocks(key)`: `KEYS LOCK_<key>:*`. -/
def getAllLocks (s : RedisStore) (key : String) : List String :=
  redisScan s (prefixKey ++ key ++ ":")

/-- The day rendered as its `YYYY-MM-DD` string; at the embedding's day
granularity the decimal numeral string stands for the ISO date string (the
rendering is injective and order-preserving on the dates in use). -/
def dayStr (d : Int) : String := toString d

/-- The lock key built by `CrawlerWorker.getTweets` (line 293):
`${keyword}:${currentRange.start}:${currentRange.end}`. -/
def lockKeyFor (keyword : String) (r : DateRange) : String :=
  keyword ++ ":" ++ dayStr r.start ++ ":" ++ dayStr r.«end»

/-- Outcome of one external `crawl` call: the cleaned tweets it resolves with,
or a thrown error. -/
inductive CrawlOutcome where
  | ok : List String → CrawlOutcome
  | thrown : CrawlOutcome
deriving Repr, DecidableEq

/-- Observable actions of the per-residual loop of `CrawlerWorker.getTweets`
(lines 290–359). -/
inductive WorkerEvent where
  | acquire : String → WorkerEvent
  | crawlCall : DateRange → WorkerEvent
  | release : String → WorkerEvent
deriving Repr, DecidableEq

/-- Whether an event is an invocation of the external `crawl`. -/
def WorkerEvent.isCrawlCall : WorkerEvent → Bool
  | .crawlCall _ => true
  | _ => false

/-- The per-residual loop of `getTweets`: for each remaining sub-range of
`splited_range` run the body
`try { aquireLock; crawl; push data; releaseLock; recurse } catch { releaseLock; recurse }`
(the recursion advances `nestedIndex` by one in both branches).  The
per-iteration database re-fetch and its short-circuit (lines 174–213) are
modeled as not firing during the loop, i.e. recorded coverage stays fixed and
not exact while the residuals are processed.  Returns the final store, the
accumulated `param.data`, and the event trace. -/
def getTweetsRangeLoop (keyword : String) (outcome : DateRange → CrawlOutcome)
    (now : Int) :
    RedisStore → List DateRange → RedisStore × List String × List WorkerEvent
  | st, [] => (st, [], [])
  | st, r :: rest =>
    let key := lockKeyFor keyword r
    let st1 := aquireLock st key now
    match outcome r with
    | .ok tweets =>
      let st2 := releaseLock st1 key
      let res := getTweetsRangeLoop keyword outcome now st2 rest
      (res.1, tweets ++ res.2.1,
        .acquire key :: .crawlCall r :: .release key :: res.2.2)
    | .thrown =>
      let st2 := releaseLock st1 key
      let res := getTweetsRangeLoop keyword outcome now st2 rest
      (res.1, res.2.1,
        .acquire key :: .crawlCall r :: .release key :: res.2.2)

/-- C4: the per-residual loop releases every sub-range's lock regardless of
the `crawl` outcome — each range's trace is
`acquire; crawl; release` whether the crawl succeeds or throws — and a failing
sub-range does not fail the job: the traces and accumulated data of all later
sub-ranges are still produced, the result being exactly the concatenation of
the successful outcomes. -/
theorem getTweetsRangeLoop_release_and_continue
    (keyword : String) (outcome : DateRange → CrawlOutcome) (now : Int)
    (st : RedisStore) (ranges : List DateRange) :
    (getTweetsRangeLoop keyword outcome now st ranges).2.2
      = (ranges.map (fun r =>
          [WorkerEvent.acquire (lockKeyFor keyword r), WorkerEvent.crawlCall r,
            WorkerEvent.release (lockKeyFor keyword r)])).flatten
    ∧ (getTweetsRangeLoop keyword outcome now st ranges).2.1
      = (ranges.map (fun r =>
          match outcome r with
          | .ok tweets => tweets
          | .thrown => [])).flatten := by
  induction ranges generalizing st with
  | nil => exact ⟨rfl, rfl⟩
  | cons r rest ih =>
    cases ho : outcome r with
    | ok tweets =>
      have h := ih (releaseLock (aquireLock st (lockKeyFor keyword r) now) (lockKeyFor keyword r))
      constructor
      · simp only [getTweetsRangeLoop, ho, List.map_cons, List.flatten_cons]
        rw [h.1]
        rfl
      · simp only [getTweetsRangeLoop, ho, List.map_cons, List.flatten_cons]
        rw [h.2]
    | thrown =>
      have h := ih (releaseLock (aquireLock st (lockKeyFor keyword r) now) (lockKeyFor keyword r))
      constructor
      · simp only [getTweetsRangeLoop, ho, List.map_cons, List.flatten_cons]
        rw [h.1]
        rfl
      · simp only [getTweetsRangeLoop, ho, List.map_cons, List.flatten_cons]
        rw [h.2]
        rfl

/-- C3 counterexample: the lock key for the sub-range `kw:[1,2]` is already
live in the store, yet the per-residual loop still invokes `crawl` for that
sub-range — the worker does not skip it, because `aquireLock` resolves to
`void` and the code never inspects an acquisition result. -/
theorem lockedRange_is_still_crawled :
    (aquireLock ⟨[]⟩ (lockKeyFor "kw" ⟨1, 2⟩) 3).hasKey
        (prefixKey ++ lockKeyFor "kw" ⟨1, 2⟩) = true
    ∧ (getTweetsRangeLoop "kw" (fun _ => .ok ["t1"]) 5
        (aquireLock ⟨[]⟩ (lockKeyFor "kw" ⟨1, 2⟩) 3) [⟨1, 2⟩]).2.2
      = [.acquire (lockKeyFor "kw" ⟨1, 2⟩), .crawlCall ⟨1, 2⟩,
          .release (lockKeyFor "kw" ⟨1, 2⟩)]
    ∧ ((getTweetsRangeLoop "kw" (fun _ => .ok ["t1"]) 5
        (aquireLock ⟨[]⟩ (lockKeyFor "kw" ⟨1, 2⟩) 3) [⟨1, 2⟩]).2.2.filter
          WorkerEvent.isCrawlCall).length = 1 := by
  refine ⟨by decide, by decide, by decide⟩

/-- C3 amended: lock acquisition is set-if-absent with an expiry at the store
level — `SET NX EX` answers `"OK"` when it stores and `null` when a live key
is present, leaving the store unchanged — but `aquireLock` discards that
answer (its promise is `void`), and the per-residual loop of the CrawlWorker
never skips: `crawl` is invoked once for every residual sub-range whatever the
lock state. -/
theorem aquireLock_setIfAbsent_no_skip (st : RedisStore) (key : String) (now : Int) :
    ((redisSetNXEX st (prefixKey ++ key) (lockValue now) (60 * 100)).2
        = if st.hasKey (prefixKey ++ key) then none else some "OK")
    ∧ (aquireLock st key now
        = if st.hasKey (prefixKey ++ key) then st
          else ⟨⟨prefixKey ++ key, lockValue now, 60 * 100⟩ :: st.entries⟩)
    ∧ (∀ (keyword : String) (outcome : DateRange → CrawlOutcome) (now2 : Int)
          (ranges : List DateRange),
        (getTweetsRangeLoop keyword outcome now2 st ranges).2.2.filter
            WorkerEvent.isCrawlCall
          = ranges.map (fun r => WorkerEvent.crawlCall r)) := by
  refine ⟨?_, ?_, ?_⟩
  · unfold redisSetNXEX
    by_cases h : st.hasKey (prefixKey ++ key) <;> simp [h]
  · unfold aquireLock redisSetNXEX
    by_cases h : st.hasKey (prefixKey ++ key) <;> simp [h]
  · intro keyword outcome now2 ranges
    induction ranges generalizing st with
    | nil => rfl
    | cons r rest ih =>
      cases ho : outcome r with
      | ok tweets =>
        simp only [getTweetsRangeLoop, ho, List.map_cons, List.filter_cons]
        rw [ih]
        rfl
      | thrown =>
        simp only [getTweetsRangeLoop, ho, List.map_cons, List.filter_cons]
        rw [ih]
        rfl

/-- C7 counterexample: a lock stored by `aquireLock` lives under the prefixed
key `LOCK_kw:2024-01-01:2024-01-02`, but `checkLock` reads the bare key, so
it reports the live lock as absent — the exists/check operation does not
address its key under the namespace prefix. -/
theorem checkLock_misses_prefixed_lock :
    (aquireLock ⟨[]⟩ "kw:2024-01-01:2024-01-02" 1700).hasKey
        (prefixKey ++ "kw:2024-01-01:2024-01-02") = true
    ∧ checkLock (aquireLock ⟨[]⟩ "kw:2024-01-01:2024-01-02" 1700)
        "kw:2024-01-01:2024-01-02" = false
    ∧ checkLock (aquireLock ⟨[]⟩ "kw:2024-01-01:2024-01-02" 1700)
        (prefixKey ++ "kw:2024-01-01:2024-01-02") = true := by
  refine ⟨by decide, by decide, by decide⟩

/-- C7 amended: every lock is stored under `LOCK_<keyword>:<start>:<end>`
(`prefixKey ++ lockKeyFor ...`) with value `{"timestamp": <unix-ms>}` and TTL
`60*100 = 6000` seconds; acquire, release and the scan all address their key
under the constant namespace prefix, but exists/check (`checkLock`) reads the
bare, un-prefixed key. -/
theorem lockStore_key_layout (st : RedisStore) (keyword key : String)
    (r : DateRange) (now : Int) :
    lockKeyFor keyword r = keyword ++ ":" ++ dayStr r.start ++ ":" ++ dayStr r.«end»
    ∧ lockValue now = "\x7b\"timestamp\":" ++ toString now ++ "\x7d"
    ∧ (60 * 100 : Nat) = 6000
    ∧ aquireLock st key now
        = (redisSetNXEX st (prefixKey ++ key) (lockValue now) 6000).1
    ∧ releaseLock st key = (redisDel st (prefixKey ++ key)).1
    ∧ getAllLocks st key = redisScan st (prefixKey ++ key ++ ":")
    ∧ checkLock st key = (redisGet st key).isSome
    ∧ (aquireLock st key now).entries
        = (if st.hasKey (prefixKey ++ key) then st.entries
           else ⟨prefixKey ++ key, lockValue now, 6000⟩ :: st.entries) := by
  refine ⟨rfl, rfl, rfl, rfl, rfl, rfl, rfl, ?_⟩
  unfold aquireLock redisSetNXEX
  by_cases h : st.hasKey (prefixKey ++ key) <;> simp [h]

/-- A child process in the Supervisor's roster (`this.workers`): its pid and
the worker script path appearing in its spawn arguments. -/
structure WorkerProc where
  pid : Nat
  script : String
deriving Repr, DecidableEq

/-- The fields of a message as used by `Supervisor.handleWorkerMessage`
(the `destination` there is handled as a single string and split on `/`). -/
structure SupMessage where
  messageId : String
  status : String
  reason : String
  destination : String
deriving Repr, DecidableEq

/-- Actions the supervisor can take while handling a message.  The vocabulary
deliberately includes the pending-message-table operations that the spec
describes (`trackPending`, `removePending`, `replayPending`), so that their
absence from the embedded code is expressible. -/
inductive SupEffect where
  | spawn : String → SupEffect
  | send : Nat → String → SupEffect
  | restart : Nat → SupEffect
  | deferRetry : String → SupEffect
  | trackPending : String → String → SupEffect
  | removePending : String → String → SupEffect
  | replayPending : String → SupEffect
deriving Repr, DecidableEq

/-- `matchesAt t p`: the chars `p` are an initial segment of `t`. -/
def matchesAt : List Char → List Char → Bool
  | _, [] => true
  | [], _ :: _ => false
  | c :: cs, d :: ds => c = d && matchesAt cs ds

/-- `hasSub t p`: the chars `p` occur contiguously somewhere in `t`
(JavaScript `t.includes(p)` / regex literal search). -/
def hasSub : List Char → List Char → Bool
  | [], p => p.isEmpty
  | c :: cs, p => matchesAt (c :: cs) p || hasSub cs p

/-- `destination.split("/").shift()?.split(".")[0] || "unknown"`
(part_006 line 87): text before the first `/`, then before the first `.`;
the empty string is falsy, giving `"unknown"`. -/
def workerNameOf (destination : String) : String :=
  let name := String.mk ((destination.data.takeWhile (fun c => ¬ (c = '/'))).takeWhile
    (fun c => ¬ (c = '.')))
  if name = "" then "unknown" else name

/-- `worker.spawnargs.find((args) => args.includes(workerName))`: the roster
entry's script path contains the worker name. -/
def procMatches (w : WorkerProc) (name : String) : Bool :=
  hasSub w.script.data name.data

/-- `Supervisor.handleWorkerMessage` (part_006 lines 85–130): route a message
from child `processId`.  `newPid` stands for the pid the spawn would produce
when no matching worker exists.  Returns the effects performed and the roster
afterwards.  The source keeps the stale `availableWorker` filter result after
a spawn unless the `SERVER_BUSY` branch recomputes it from `this.workers`. -/
def handleWorkerMessage (workers : List WorkerProc) (msg : SupMessage)
    (processId : Nat) (newPid : Nat) : List SupEffect × List WorkerProc :=
  let workerName := workerNameOf msg.destination
  let availableWorker := workers.filter (fun w => procMatches w workerName)
  if msg.status = "error" then
    ([.restart processId], workers)
  else
    let spawned := availableWorker.isEmpty
    let effects0 : List SupEffect := if spawned then [.spawn workerName] else []
    let workers1 := if spawned then workers ++ [⟨newPid, workerName⟩] else workers
    let available1 :=
      if msg.status = "failed" ∧ msg.reason = "SERVER_BUSY" then
        workers1.filter (fun w => procMatches w workerName && ¬ (w.pid = processId))
      else availableWorker
    match available1 with
    | [] => (effects0 ++ [.deferRetry msg.messageId], workers1)
    | w :: _ => (effects0 ++ [.send w.pid msg.messageId], workers1)

/-- The child-process event handlers `Supervisor.createWorker` registers on
each spawned worker (part_006 line 77): only `message`; in particular no
`exit` handler is attached. -/
def createWorkerHandlers : List String := ["message"]

/-- C5 evaluation: the routing of an ordinary completed job envelope.  The
effect trace of the supervisor is a bare `send`: nothing is inserted into any
pending-message table before the send, no completion-time removal exists, and
since `createWorker` attaches no `exit` handler there is no respawn-with-replay
path at all. -/
theorem supervisor_no_pending_table :
    (handleWorkerMessage [⟨1001, "CrawlerWorker"⟩]
        ⟨"m1", "completed", "", "CrawlerWorker/crawling"⟩ 1002 2000).1
      = [SupEffect.send 1001 "m1"]
    ∧ (handleWorkerMessage [⟨1001, "CrawlerWorker"⟩]
        ⟨"m1", "completed", "", "CrawlerWorker/crawling"⟩ 1002 2000).2
      = [⟨1001, "CrawlerWorker"⟩]
    ∧ createWorkerHandlers = ["message"]
    ∧ createWorkerHandlers.contains "exit" = false := by
  refine ⟨by decide, by decide, rfl, by decide⟩

/-- Split a character list at every occurrence of `sep`
(JavaScript `String.prototype.split` with a one-character separator). -/
def splitOnChar (sep : Char) : List Char → List (List Char)
  | [] => [[]]
  | c :: cs =>
    let rest := splitOnChar sep cs
    if c = sep then [] :: rest
    else
      match rest with
      | [] => [[c]]
      | r :: rs => (c :: r) :: rs

/-- Dispatch of `DatabaseInteractionWorker.listenTask`
(`src/workers/DatabaseInteractionWorker.ts` lines 54–77):
`path = destination.split("/")[1]`, `subPath = destination.split("/")[2]`,
`switch (path)` with the single case `createNewData`; every other path falls
to the `default` branch, which logs `Unknown destination` and returns without
producing any reply. -/
inductive DbAction where
  | createData : String → DbAction
  | unknownDestination : DbAction
deriving Repr, DecidableEq

def dbDispatch (destination : String) : DbAction :=
  let parts := splitOnChar '/' destination.data
  let path := String.mk (parts.getD 1 [])
  let subPath := String.mk (parts.getD 2 [])
  if path = "createNewData" then .createData subPath else .unknownDestination

/-- C6 evaluation: a message addressed to
`DatabaseInteractionWorker/getCrawledData` is treated as an unknown
destination by the worker's dispatch — no `get_crawled_data` operation exists
in the switch — while `createNewData` is dispatched normally. -/
theorem getCrawledData_unknown_destination :
    dbDispatch "DatabaseInteractionWorker/getCrawledData" = DbAction.unknownDestination
    ∧ dbDispatch "DatabaseInteractionWorker/createNewData/project123"
        = DbAction.createData "project123" := by
  refine ⟨by decide, by decide⟩

/-- JS `String.prototype.replace(" ", "|")` with a string pattern: replaces
only the FIRST occurrence of the space. -/
def replaceFirstSpace : List Char → List Char
  | [] => []
  | c :: cs => if c = ' ' then '|' :: cs else c :: replaceFirstSpace cs

/-- ASCII-case folding used to model the `i` regex flag. -/
def lowerChars (l : List Char) : List Char := l.map Char.toLower

/-- `new RegExp(p, "i").test(t)` for an alternation of literal alternatives
`p = a1|…|an` — the only regex shape this code builds: true iff some
alternative occurs contiguously in `t`, ignoring case. -/
def regexTest (pattern text : String) : Bool :=
  (splitOnChar '|' pattern.data).any
    (fun alt => hasSub (lowerChars text.data) (lowerChars alt))

/-- The regex source built in `CrawlerWorker.crawling` (line 86):
`data.keyword.replace(' ', '|')`. -/
def crawlingRegex (keyword : String) : String :=
  String.mk (replaceFirstSpace keyword.data)

/-- The filter in `CrawlerWorker.crawling` (lines 86–90): retain the crawled
records whose `full_text` the regex matches. -/
def crawlingFilter (keyword : String) (crawled : List String) : List String :=
  crawled.filter (fun fullText => regexTest (crawlingRegex keyword) fullText)

/-- The regex the spec describes: all whitespace-separated tokens of the
keyword joined by `|` (`keyword.split_whitespace().join("|")`). -/
def specKeywordRegex (keyword : String) : String :=
  String.mk (((splitOnChar ' ' keyword.data).intersperse ['|']).flatten)

/-- C8 counterexample: for the three-token keyword `"a b c"` the code builds
`/a|b c/i` — only the first space becomes an alternation bar — so the record
whose text is `"c"` is dropped even though it matches the claimed all-token
alternation `/a|b|c/i`. -/
theorem crawlingFilter_three_tokens_counterexample :
    crawlingRegex "a b c" = "a|b c"
    ∧ crawlingFilter "a b c" ["c"] = []
    ∧ specKeywordRegex "a b c" = "a|b|c"
    ∧ regexTest (specKeywordRegex "a b c") "c" = true := by
  refine ⟨by decide, by decide, by decide, by decide⟩

theorem splitOnChar_no_sep (sep : Char) (l : List Char) (h : sep ∉ l) :
    splitOnChar sep l = [l] := by
  induction l with
  | nil => rfl
  | cons c cs ih =>
    have hc : ¬ (c = sep) := fun hcs => h (hcs ▸ List.mem_cons_self c cs)
    have hcs : sep ∉ cs := fun hm => h (List.mem_cons_of_mem c hm)
    unfold splitOnChar
    rw [if_neg hc, ih hcs]

theorem splitOnChar_replaceFirstSpace (l : List Char)
    (hbar : '|' ∉ l) (hsp : ' ' ∈ l) :
    splitOnChar '|' (replaceFirstSpace l)
      = [l.takeWhile (fun c => ¬ (c = ' ')),
          (l.dropWhile (fun c => ¬ (c = ' '))).tail] := by
  induction l with
  | nil => simp at hsp
  | cons c cs ih =>
    have hbar' : '|' ∉ cs := fun hm => hbar (List.mem_cons_of_mem c hm)
    by_cases hc : c = ' '
    · subst hc
      have hrepl : replaceFirstSpace (' ' :: cs) = '|' :: cs := by
        simp [replaceFirstSpace]
      rw [hrepl]
      have hsplit : splitOnChar '|' ('|' :: cs) = [] :: splitOnChar '|' cs := by
        simp [splitOnChar]
      rw [hsplit, splitOnChar_no_sep '|' cs hbar']
      simp
    · have hcbar : ¬ (c = '|') := fun hcb => hbar (hcb ▸ List.mem_cons_self c cs)
      have hsp' : ' ' ∈ cs := by
        rcases List.mem_cons.mp hsp with h | h
        · exact absurd h.symm hc
        · exact h
      have hrepl : replaceFirstSpace (c :: cs) = c :: replaceFirstSpace cs := by
        simp [replaceFirstSpace, hc]
      rw [hrepl]
      have hih := ih hbar' hsp'
      have hsplit : splitOnChar '|' (c :: replaceFirstSpace cs)
          = (c :: (cs.takeWhile (fun x => ¬ (x = ' ')))) ::
              [(cs.dropWhile (fun x => ¬ (x = ' '))).tail] := by
        show (if c = '|' then [] :: splitOnChar '|' (replaceFirstSpace cs)
          else
            match splitOnChar '|' (replaceFirstSpace cs) with
            | [] => [[c]]
            | r :: rs => (c :: r) :: rs) = _
        rw [if_neg hcbar, hih]
      rw [hsplit]
      have htk : (c :: cs).takeWhile (fun x => ¬ (x = ' '))
          = c :: cs.takeWhile (fun x => ¬ (x = ' ')) := by
        rw [List.takeWhile_cons]
        simp [hc]
      have hdw : (c :: cs).dropWhile (fun x => ¬ (x = ' '))
          = cs.dropWhile (fun x => ¬ (x = ' ')) := by
        rw [List.dropWhile_cons]
        simp [hc]
      rw [htk, hdw]

/-- C8 amended: only the first whitespace of the keyword is replaced by `|`
(JavaScript `replace` with a string pattern), so the CrawlWorker retains
exactly the records whose `full_text` matches, case-insensitively, the
TWO-alternative regex `first-token | remainder-of-keyword`; for a keyword of
three or more tokens the tokens after the first form a single alternative
instead of separate ones. -/
theorem crawlingFilter_first_space_alternation (keyword : String)
    (crawled : List String)
    (hbar : '|' ∉ keyword.data) (hsp : ' ' ∈ keyword.data) :
    crawlingFilter keyword crawled
      = crawled.filter (fun t =>
          hasSub (lowerChars t.data)
              (lowerChars (keyword.data.takeWhile (fun c => ¬ (c = ' '))))
          || hasSub (lowerChars t.data)
              (lowerChars ((keyword.data.dropWhile (fun c => ¬ (c = ' '))).tail))) := by
  unfold crawlingFilter regexTest crawlingRegex
  rw [show (String.mk (replaceFirstSpace keyword.data)).data
      = replaceFirstSpace keyword.data from rfl]
  rw [splitOnChar_replaceFirstSpace keyword.data hbar hsp]
  simp only [List.any_cons, List.any_nil, Bool.or_false]

/-- Witness for C8 amended at the keyword `"a b c"`: `"c"` is dropped while
`"a x"` (matches the first token) and `"B Cat"` (contains both `a` and
`b c` after case folding) are retained. -/
theorem crawlingFilter_first_space_alternation_witness :
    crawlingFilter "a b c" ["c", "a x", "B Cat"] = ["a x", "B Cat"] :=
  (crawlingFilter_first_space_alternation "a b c" ["c", "a x", "B Cat"]
    (by decide) (by decide)).trans (by decide)

end SCData
